import Mathlib

/-!
# Verification of QuickMathHPP (quickmath.hpp)

A shallow embedding of the numeric core of `quickmath.hpp`, compiled in its
default configuration (`QM_USE_SSE = 1`), together with proofs settling the
frozen claims about the library.

## The float model

All C `float` values are modelled by `QM.F32`: an IEEE-754 binary32 value is
either a finite value (carried as the exact rational it denotes), `inf`,
`neginf`, or `nan`.  Finite results of arithmetic are rounded with the IEEE
default rounding (round to nearest, ties to even), including subnormal
quantisation (smallest quantum `2^-149`) and overflow to infinity at `2^128`.
The model collapses IEEE's two zeros into the single rational `0`; no claim
settled below observes the sign of a zero (the spots where a signed zero could
matter - the sign of `1/0` when both compared entries are the same expression,
and `0 * inf` - give the same observable outcome either way).

Transcendental host-library functions (`tanf`, `sinf`, `acosf`) are not part
of the repository; the spec explicitly delegates them to the host math
library.  They are taken as parameters of the operations that use them, and
theorems assume only the exact-value cases mandated by the C standard
(Annex F): `sin(±0) = ±0`, `acos(1) = +0`.  `sqrtf` is required by IEEE-754 to
be correctly rounded, so it is modelled concretely.
-/

namespace QM

/-- An IEEE-754 binary32 value: finite (the exact rational it denotes),
positive infinity, negative infinity, or NaN.  The two IEEE zeros are
collapsed into `fin 0`. -/
inductive F32 where
  | fin (val : ℚ)
  | inf
  | neginf
  | nan
deriving DecidableEq, Repr

namespace F32

/-- IEEE negation: flip the sign bit.  (`-nan` stays NaN.) -/
def neg : F32 → F32
  | fin a => fin (-a)
  | inf => neginf
  | neginf => inf
  | nan => nan

/-- Round a rational to an integer, round-half-to-even. -/
def rint (q : ℚ) : ℤ :=
  if q - ⌊q⌋ < 1/2 then ⌊q⌋
  else if 1/2 < q - ⌊q⌋ then ⌊q⌋ + 1
  else if ⌊q⌋ % 2 = 0 then ⌊q⌋ else ⌊q⌋ + 1

/-- Fuel-driven binary logarithm on naturals (structural recursion, so the
kernel can evaluate it; proved equal to `Nat.log 2` below). -/
def nlogAux : ℕ → ℕ → ℕ
  | 0, _ => 0
  | fuel + 1, n => if 2 ≤ n then nlogAux fuel (n / 2) + 1 else 0

/-- `Nat.log 2`, computably. -/
def nlog (n : ℕ) : ℕ := nlogAux n n

/-- Fuel-driven ceiling binary logarithm on naturals. -/
def nclogAux : ℕ → ℕ → ℕ
  | 0, _ => 0
  | fuel + 1, n => if 2 ≤ n then nclogAux fuel ((n + 1) / 2) + 1 else 0

/-- `Nat.clog 2`, computably. -/
def nclog (n : ℕ) : ℕ := nclogAux n n

/-- `Int.log 2` on the rationals, by structural recursion (proved equal to
`Int.log 2` below). -/
def ilog2 (q : ℚ) : ℤ :=
  if 1 ≤ q then (nlog ⌊q⌋₊ : ℤ) else -(nclog ⌈q⁻¹⌉₊ : ℤ)

/-- Fuel-driven binary powering: `pow2Aux fuel n = 2 ^ n` for `n ≤ fuel`,
with recursion depth logarithmic in `n` (so concrete evaluation stays
shallow). -/
def pow2Aux : ℕ → ℕ → ℚ
  | 0, _ => 1
  | fuel + 1, n =>
    if n = 0 then 1
    else if n % 2 = 0 then pow2Aux fuel (n / 2) * pow2Aux fuel (n / 2)
    else 2 * (pow2Aux fuel (n / 2) * pow2Aux fuel (n / 2))

/-- `(2 : ℚ) ^ n`, by binary powering. -/
def pow2 (n : ℕ) : ℚ := pow2Aux n n

/-- `(2 : ℚ) ^ s` for an integer exponent, by binary powering. -/
def pow2z (s : ℤ) : ℚ := if 0 ≤ s then pow2 s.toNat else (pow2 (-s).toNat)⁻¹

/-- The exponent of the quantum (ulp) used when rounding a positive rational
to binary32: 23 bits after the leading binade, clamped at the subnormal
quantum `2^-149`. -/
def scaleOf (q : ℚ) : ℤ := max (ilog2 q - 23) (-149)

/-- Round a positive rational to binary32 (round to nearest, ties to even),
overflowing to `inf` at `2^128`. -/
def roundPos (q : ℚ) : F32 :=
  if (rint (q / pow2z (scaleOf q)) : ℚ) * pow2z (scaleOf q) < pow2 128
  then fin ((rint (q / pow2z (scaleOf q)) : ℚ) * pow2z (scaleOf q))
  else inf

/-- Round any rational to binary32 (round to nearest, ties to even). -/
def roundQ (q : ℚ) : F32 :=
  if 0 < q then roundPos q
  else if q < 0 then (roundPos (-q)).neg
  else fin 0

/-- The binary32 value of a decimal floating literal in the C source
(literals are rounded at compile time). -/
def flit (q : ℚ) : F32 := roundQ q

/-- IEEE addition. -/
def add : F32 → F32 → F32
  | nan, _ => nan
  | _, nan => nan
  | fin a, fin b => roundQ (a + b)
  | fin _, inf => inf
  | fin _, neginf => neginf
  | inf, fin _ => inf
  | inf, inf => inf
  | inf, neginf => nan
  | neginf, fin _ => neginf
  | neginf, inf => nan
  | neginf, neginf => neginf

/-- IEEE subtraction; identical to adding the negation (exact in IEEE-754). -/
def sub (a b : F32) : F32 := add a b.neg

/-- The result of multiplying an infinity by the finite value `x`:
`±inf` by the sign of `x`, NaN for `x = 0`. -/
def sgnInf (x : ℚ) : F32 := if x = 0 then nan else if 0 < x then inf else neginf

/-- `sgnInf` with the opposite orientation (for products with `neginf`). -/
def sgnInfNeg (x : ℚ) : F32 := if x = 0 then nan else if 0 < x then neginf else inf

/-- IEEE multiplication. -/
def mul : F32 → F32 → F32
  | nan, _ => nan
  | _, nan => nan
  | fin a, fin b => roundQ (a * b)
  | fin a, inf => sgnInf a
  | fin a, neginf => sgnInfNeg a
  | inf, fin b => sgnInf b
  | neginf, fin b => sgnInfNeg b
  | inf, inf => inf
  | inf, neginf => neginf
  | neginf, inf => neginf
  | neginf, neginf => inf

/-- IEEE division.  A nonzero finite value divided by zero gives a signed
infinity; `0/0` gives NaN. -/
def div : F32 → F32 → F32
  | nan, _ => nan
  | _, nan => nan
  | fin a, fin b =>
      if b = 0 then (if a = 0 then nan else if 0 < a then inf else neginf)
      else roundQ (a / b)
  | fin _, inf => fin 0
  | fin _, neginf => fin 0
  | inf, fin b => if 0 ≤ b then inf else neginf
  | neginf, fin b => if 0 ≤ b then neginf else inf
  | inf, inf => nan
  | inf, neginf => nan
  | neginf, inf => nan
  | neginf, neginf => nan

/-- Round-to-nearest (ties to even) integer approximation of `√y`, `y ≥ 0`. -/
def risqrt (y : ℚ) : ℤ :=
  let n : ℕ := Nat.sqrt ⌊y⌋.toNat
  let mid : ℚ := (n : ℚ) * n + n + 1/4
  if y < mid then (n : ℤ)
  else if mid < y then (n : ℤ) + 1
  else if (n : ℤ) % 2 = 0 then (n : ℤ) else (n : ℤ) + 1

/-- The quantum exponent for the square root of a positive rational. -/
def sqrtScale (q : ℚ) : ℤ := max (Int.fdiv (ilog2 q) 2 - 23) (-149)

/-- Correctly rounded square root of a positive rational. -/
def sqrtPos (q : ℚ) : F32 :=
  if (risqrt (q / pow2z (2 * sqrtScale q)) : ℚ) * pow2z (sqrtScale q) < pow2 128
  then fin ((risqrt (q / pow2z (2 * sqrtScale q)) : ℚ) * pow2z (sqrtScale q))
  else inf

/-- IEEE square root (`sqrtf` is correctly rounded per IEEE-754). -/
def sqrt : F32 → F32
  | nan => nan
  | inf => inf
  | neginf => nan
  | fin a => if a < 0 then nan else if a = 0 then fin 0 else sqrtPos a

/-- The C `==` operator on floats: NaN compares unequal to everything,
infinities compare equal to themselves, finite values compare by value. -/
def feq : F32 → F32 → Bool
  | fin a, fin b => a = b
  | inf, inf => true
  | neginf, neginf => true
  | _, _ => false

end F32

open F32

/-- `QMvec2`: a 2-dimensional vector of floats. -/
structure Vec2 where
  x : F32
  y : F32
deriving DecidableEq, Repr

/-- `QMvec3`: a 3-dimensional vector of floats. -/
structure Vec3 where
  x : F32
  y : F32
  z : F32
deriving DecidableEq, Repr

/-- `QMvec4`: a 4-dimensional vector of floats.  With `QM_USE_SSE` the four
components live in one `__m128` lane (`x` is lane 0). -/
structure Vec4 where
  x : F32
  y : F32
  z : F32
  w : F32
deriving DecidableEq, Repr

/-- `QMquaternion`, components `(x, y, z, w)`, `w` the scalar part. -/
structure Quat where
  x : F32
  y : F32
  z : F32
  w : F32
deriving DecidableEq, Repr

/-- `QMmat4`: a 4x4 column-major matrix; `cj` is column `j` (the source's
`m[j][0..3]`, one `__m128` lane per column in the SSE configuration). -/
structure Mat4 where
  c0 : Vec4
  c1 : Vec4
  c2 : Vec4
  c3 : Vec4
deriving DecidableEq, Repr

/-- Entry `m[col][row]` of a `QMmat4` (column-major, as in the source). -/
def Mat4.entry (m : Mat4) : Fin 4 → Fin 4 → F32
  | 0, 0 => m.c0.x | 0, 1 => m.c0.y | 0, 2 => m.c0.z | 0, 3 => m.c0.w
  | 1, 0 => m.c1.x | 1, 1 => m.c1.y | 1, 2 => m.c1.z | 1, 3 => m.c1.w
  | 2, 0 => m.c2.x | 2, 1 => m.c2.y | 2, 2 => m.c2.z | 2, 3 => m.c2.w
  | 3, 0 => m.c3.x | 3, 1 => m.c3.y | 3, 2 => m.c3.z | 3, 3 => m.c3.w

namespace Vec2

/-- `operator+(QMvec2, QMvec2)`. -/
def vadd (v1 v2 : Vec2) : Vec2 := ⟨add v1.x v2.x, add v1.y v2.y⟩

/-- `operator-(QMvec2, QMvec2)`. -/
def vsub (v1 v2 : Vec2) : Vec2 := ⟨sub v1.x v2.x, sub v1.y v2.y⟩

/-- `operator/(QMvec2, float)`. -/
def divs (v : Vec2) (s : F32) : Vec2 := ⟨div v.x s, div v.y s⟩

/-- `QM_dot(QMvec2, QMvec2)`: `v1.x * v2.x + v1.y * v2.y`. -/
def dot (v1 v2 : Vec2) : F32 := add (mul v1.x v2.x) (mul v1.y v2.y)

/-- `QM_length(QMvec2)`: `sqrtf(dot(v, v))`. -/
def length (v : Vec2) : F32 := F32.sqrt (dot v v)

/-- `QM_normalize(QMvec2)`: `result` is default (zero) initialised and is
overwritten with `v / len` only when `len != 0.0f`. -/
def normalize (v : Vec2) : Vec2 :=
  if feq (length v) (F32.fin 0) then ⟨F32.fin 0, F32.fin 0⟩
  else divs v (length v)

end Vec2

namespace Vec3

/-- `operator+(QMvec3, QMvec3)`. -/
def vadd (v1 v2 : Vec3) : Vec3 := ⟨add v1.x v2.x, add v1.y v2.y, add v1.z v2.z⟩

/-- `operator-(QMvec3, QMvec3)`. -/
def vsub (v1 v2 : Vec3) : Vec3 := ⟨sub v1.x v2.x, sub v1.y v2.y, sub v1.z v2.z⟩

/-- `operator/(QMvec3, float)`. -/
def divs (v : Vec3) (s : F32) : Vec3 := ⟨div v.x s, div v.y s, div v.z s⟩

/-- `QM_dot(QMvec3, QMvec3)`: `v1.x * v2.x + v1.y * v2.y + v1.z * v2.z`
(C left-associated sum). -/
def dot (v1 v2 : Vec3) : F32 :=
  add (add (mul v1.x v2.x) (mul v1.y v2.y)) (mul v1.z v2.z)

/-- `QM_length(QMvec3)`: `sqrtf(dot(v, v))`. -/
def length (v : Vec3) : F32 := F32.sqrt (dot v v)

/-- `QM_normalize(QMvec3)`: guarded exactly like the 2-dimensional case. -/
def normalize (v : Vec3) : Vec3 :=
  if feq (length v) (F32.fin 0) then ⟨F32.fin 0, F32.fin 0, F32.fin 0⟩
  else divs v (length v)

end Vec3

namespace Vec4

/-- `operator+(QMvec4, QMvec4)`, SSE path `_mm_add_ps` (lane-wise add). -/
def vadd (v1 v2 : Vec4) : Vec4 :=
  ⟨add v1.x v2.x, add v1.y v2.y, add v1.z v2.z, add v1.w v2.w⟩

/-- `operator-(QMvec4, QMvec4)`, SSE path `_mm_sub_ps` (lane-wise sub). -/
def vsub (v1 v2 : Vec4) : Vec4 :=
  ⟨sub v1.x v2.x, sub v1.y v2.y, sub v1.z v2.z, sub v1.w v2.w⟩

/-- `operator/(QMvec4, float)`, SSE path: `_mm_div_ps` against `_mm_set1_ps(s)`. -/
def divs (v : Vec4) (s : F32) : Vec4 := ⟨div v.x s, div v.y s, div v.z s, div v.w s⟩

/-- `QM_dot(QMvec4, QMvec4)`, SSE path: lane-wise product, then two
`_mm_hadd_ps` reductions, i.e. `(x1*x2 + y1*y2) + (z1*z2 + w1*w2)`. -/
def dot (v1 v2 : Vec4) : F32 :=
  add (add (mul v1.x v2.x) (mul v1.y v2.y)) (add (mul v1.z v2.z) (mul v1.w v2.w))

/-- `QM_length(QMvec4)`: `sqrtf(dot(v, v))`. -/
def length (v : Vec4) : F32 := F32.sqrt (dot v v)

/-- `QM_normalize(QMvec4)`: no zero-length guard; always divides by the
length. -/
def normalize (v : Vec4) : Vec4 := divs v (length v)

end Vec4

namespace Quat

/-- `operator+(QMquaternion, QMquaternion)`, SSE `_mm_add_ps`. -/
def qadd (q1 q2 : Quat) : Quat :=
  ⟨add q1.x q2.x, add q1.y q2.y, add q1.z q2.z, add q1.w q2.w⟩

/-- `operator*(QMquaternion, float)`, SSE `_mm_mul_ps` with `_mm_set1_ps(s)`. -/
def scale (q : Quat) (s : F32) : Quat :=
  ⟨mul q.x s, mul q.y s, mul q.z s, mul q.w s⟩

/-- `operator/(QMquaternion, float)`, SSE `_mm_div_ps` with `_mm_set1_ps(s)`. -/
def divs (q : Quat) (s : F32) : Quat :=
  ⟨div q.x s, div q.y s, div q.z s, div q.w s⟩

/-- `QM_dot(QMquaternion, QMquaternion)`, SSE path (two `_mm_hadd_ps`
reductions): `(x1*x2 + y1*y2) + (z1*z2 + w1*w2)`. -/
def dot (q1 q2 : Quat) : F32 :=
  add (add (mul q1.x q2.x) (mul q1.y q2.y)) (add (mul q1.z q2.z) (mul q1.w q2.w))

/-- `QM_length(QMquaternion)`: `sqrtf(dot(q, q))`. -/
def length (q : Quat) : F32 := F32.sqrt (dot q q)

/-- `QM_normalize(QMquaternion)`: the `if(len != 0.0f)` guard sits outside
the `#if QM_USE_SSE` block, so it is active in both configurations; `result`
is default (zero) initialised. -/
def normalize (q : Quat) : Quat :=
  if feq (length q) (F32.fin 0) then ⟨F32.fin 0, F32.fin 0, F32.fin 0, F32.fin 0⟩
  else divs q (length q)

/-- `QM_conjugate`: negate `x`, `y`, `z`; keep `w`. -/
def conjugate (q : Quat) : Quat := ⟨q.x.neg, q.y.neg, q.z.neg, q.w⟩

/-- `QM_inverse(QMquaternion)` as compiled (`QM_USE_SSE = 1`): `result` is
set to the conjugate, then the source computes
`_mm_div_ps(result.packed, _mm_set1_ps(QM_dot(q, q)))` but never assigns the
returned lane anywhere, so the scaling is lost and the function returns the
bare conjugate.  (The scalar fallback would not even compile: it calls the
undefined `QM_quaternion_dot`.) -/
def inverse (q : Quat) : Quat := conjugate q

/-- Modelled from the spec: `inverse` as the spec requires it - the
conjugate with every component scaled by the reciprocal of the squared
length `1/dot(q,q)` (the scalar-path formula `invLen2 = 1.0f / dot(q, q)`,
each component multiplied by `invLen2`). -/
def inverseSpec (q : Quat) : Quat :=
  let invLen2 := div (F32.fin 1) (dot q q)
  scale (conjugate q) invLen2

/-- `operator*(QMquaternion, QMquaternion)`, SSE path, lane by lane.
Step 1 broadcasts `q1.w` against `q2`; steps 2-4 broadcast `q1.x`, `q1.y`,
`q1.z` with sign masks `(+,-,+,-)`, `(+,+,-,-)`, `(-,+,+,-)` (via
`_mm_xor_ps` with `-0.0f`, i.e. IEEE negation) against the shuffles
`(w2,z2,y2,x2)`, `(z2,w2,x2,y2)`, `(y2,x2,w2,z2)` of `q2`, accumulating with
`_mm_add_ps`. -/
def hmulSSE (q1 q2 : Quat) : Quat :=
  ⟨add (add (add (mul q1.w q2.x) (mul q1.x q2.w)) (mul q1.y q2.z))
      (mul q1.z.neg q2.y),
   add (add (add (mul q1.w q2.y) (mul q1.x.neg q2.z)) (mul q1.y q2.w))
      (mul q1.z q2.x),
   add (add (add (mul q1.w q2.z) (mul q1.x q2.y)) (mul q1.y.neg q2.x))
      (mul q1.z q2.w),
   add (add (add (mul q1.w q2.w) (mul q1.x.neg q2.x)) (mul q1.y.neg q2.y))
      (mul q1.z.neg q2.z)⟩

/-- `operator*(QMquaternion, QMquaternion)`, scalar (`#else`) path:
`x = w1x2 + x1w2 + y1z2 - z1y2`, `y = w1y2 - x1z2 + y1w2 + z1x2`,
`z = w1z2 + x1y2 - y1x2 + z1w2`, `w = w1w2 - x1x2 - y1y2 - z1z2`
(C left-associated). -/
def hmulScalar (q1 q2 : Quat) : Quat :=
  ⟨sub (add (add (mul q1.w q2.x) (mul q1.x q2.w)) (mul q1.y q2.z))
      (mul q1.z q2.y),
   add (add (sub (mul q1.w q2.y) (mul q1.x q2.z)) (mul q1.y q2.w))
      (mul q1.z q2.x),
   add (sub (add (mul q1.w q2.z) (mul q1.x q2.y)) (mul q1.y q2.x))
      (mul q1.z q2.w),
   sub (sub (sub (mul q1.w q2.w) (mul q1.x q2.x)) (mul q1.y q2.y))
      (mul q1.z q2.z)⟩

/-- `QM_slerp(q1, q2, a)`, parametrised by the host library's `sinf` and
`acosf` (the repository delegates transcendentals to the host math
library). -/
def slerp (sinF acosF : F32 → F32) (q1 q2 : Quat) (a : F32) : Quat :=
  let cosine := dot q1 q2
  let angle := acosF cosine
  let sine1 := sinF (mul (sub (F32.fin 1) a) angle)
  let sine2 := sinF (mul a angle)
  let invSine := div (F32.fin 1) (sinF angle)
  let q1scaled := scale q1 sine1
  let q2scaled := scale q2 sine2
  scale (qadd q1scaled q2scaled) invSine

end Quat

namespace Mat4

/-- `QM_mat4_identity()`. -/
def identity : Mat4 :=
  ⟨⟨F32.fin 1, F32.fin 0, F32.fin 0, F32.fin 0⟩,
   ⟨F32.fin 0, F32.fin 1, F32.fin 0, F32.fin 0⟩,
   ⟨F32.fin 0, F32.fin 0, F32.fin 1, F32.fin 0⟩,
   ⟨F32.fin 0, F32.fin 0, F32.fin 0, F32.fin 1⟩⟩

/-- `QM_translate(QMvec3)`: identity with `m[3][0..2] = t`. -/
def translate (t : Vec3) : Mat4 :=
  ⟨⟨F32.fin 1, F32.fin 0, F32.fin 0, F32.fin 0⟩,
   ⟨F32.fin 0, F32.fin 1, F32.fin 0, F32.fin 0⟩,
   ⟨F32.fin 0, F32.fin 0, F32.fin 1, F32.fin 0⟩,
   ⟨t.x, t.y, t.z, F32.fin 1⟩⟩

/-- `QM_mat4_mult_column_sse(c1, m2)`: four broadcast-multiply-accumulate
steps, `Σ_k splat(c1[k]) * m2.column[k]`, accumulated in lane order
`k = 0, 1, 2, 3`. -/
def multColumnSSE (c : Vec4) (m : Mat4) : Vec4 :=
  ⟨add (add (add (mul c.x m.c0.x) (mul c.y m.c1.x)) (mul c.z m.c2.x)) (mul c.w m.c3.x),
   add (add (add (mul c.x m.c0.y) (mul c.y m.c1.y)) (mul c.z m.c2.y)) (mul c.w m.c3.y),
   add (add (add (mul c.x m.c0.z) (mul c.y m.c1.z)) (mul c.z m.c2.z)) (mul c.w m.c3.z),
   add (add (add (mul c.x m.c0.w) (mul c.y m.c1.w)) (mul c.z m.c2.w)) (mul c.w m.c3.w)⟩

/-- `operator*(QMmat4, QMmat4)`, SSE path: each result column is
`QM_mat4_mult_column_sse(m2.packed[j], m1)`. -/
def mmulSSE (m1 m2 : Mat4) : Mat4 :=
  ⟨multColumnSSE m2.c0 m1, multColumnSSE m2.c1 m1,
   multColumnSSE m2.c2 m1, multColumnSSE m2.c3 m1⟩

/-- `operator*(QMmat4, QMmat4)`, scalar (`#else`) path:
`result.m[j][i] = m1.m[0][i]*m2.m[j][0] + m1.m[1][i]*m2.m[j][1] +
m1.m[2][i]*m2.m[j][2] + m1.m[3][i]*m2.m[j][3]` (C left-associated), written
out for all 16 entries as in the source. -/
def mmulScalar (m1 m2 : Mat4) : Mat4 :=
  ⟨⟨add (add (add (mul m1.c0.x m2.c0.x) (mul m1.c1.x m2.c0.y)) (mul m1.c2.x m2.c0.z)) (mul m1.c3.x m2.c0.w),
    add (add (add (mul m1.c0.y m2.c0.x) (mul m1.c1.y m2.c0.y)) (mul m1.c2.y m2.c0.z)) (mul m1.c3.y m2.c0.w),
    add (add (add (mul m1.c0.z m2.c0.x) (mul m1.c1.z m2.c0.y)) (mul m1.c2.z m2.c0.z)) (mul m1.c3.z m2.c0.w),
    add (add (add (mul m1.c0.w m2.c0.x) (mul m1.c1.w m2.c0.y)) (mul m1.c2.w m2.c0.z)) (mul m1.c3.w m2.c0.w)⟩,
   ⟨add (add (add (mul m1.c0.x m2.c1.x) (mul m1.c1.x m2.c1.y)) (mul m1.c2.x m2.c1.z)) (mul m1.c3.x m2.c1.w),
    add (add (add (mul m1.c0.y m2.c1.x) (mul m1.c1.y m2.c1.y)) (mul m1.c2.y m2.c1.z)) (mul m1.c3.y m2.c1.w),
    add (add (add (mul m1.c0.z m2.c1.x) (mul m1.c1.z m2.c1.y)) (mul m1.c2.z m2.c1.z)) (mul m1.c3.z m2.c1.w),
    add (add (add (mul m1.c0.w m2.c1.x) (mul m1.c1.w m2.c1.y)) (mul m1.c2.w m2.c1.z)) (mul m1.c3.w m2.c1.w)⟩,
   ⟨add (add (add (mul m1.c0.x m2.c2.x) (mul m1.c1.x m2.c2.y)) (mul m1.c2.x m2.c2.z)) (mul m1.c3.x m2.c2.w),
    add (add (add (mul m1.c0.y m2.c2.x) (mul m1.c1.y m2.c2.y)) (mul m1.c2.y m2.c2.z)) (mul m1.c3.y m2.c2.w),
    add (add (add (mul m1.c0.z m2.c2.x) (mul m1.c1.z m2.c2.y)) (mul m1.c2.z m2.c2.z)) (mul m1.c3.z m2.c2.w),
    add (add (add (mul m1.c0.w m2.c2.x) (mul m1.c1.w m2.c2.y)) (mul m1.c2.w m2.c2.z)) (mul m1.c3.w m2.c2.w)⟩,
   ⟨add (add (add (mul m1.c0.x m2.c3.x) (mul m1.c1.x m2.c3.y)) (mul m1.c2.x m2.c3.z)) (mul m1.c3.x m2.c3.w),
    add (add (add (mul m1.c0.y m2.c3.x) (mul m1.c1.y m2.c3.y)) (mul m1.c2.y m2.c3.z)) (mul m1.c3.y m2.c3.w),
    add (add (add (mul m1.c0.z m2.c3.x) (mul m1.c1.z m2.c3.y)) (mul m1.c2.z m2.c3.z)) (mul m1.c3.z m2.c3.w),
    add (add (add (mul m1.c0.w m2.c3.x) (mul m1.c1.w m2.c3.y)) (mul m1.c2.w m2.c3.z)) (mul m1.c3.w m2.c3.w)⟩⟩

/-- `operator*(QMmat4, QMvec4)`, SSE path:
`QM_mat4_mult_column_sse(v.packed, m)`. -/
def mvmul (m : Mat4) (v : Vec4) : Vec4 := multColumnSSE v m

/-- `QM_deg_to_rad`: `deg * 0.01745329251f`. -/
def degToRad (deg : F32) : F32 := mul deg (flit (1745329251 / 100000000000))

/-- `QM_perspective(fov, aspect, near, far)`, parametrised by the host
library's `tanf`.  The result starts fully zeroed (`QMmat4 result = {0}`),
then exactly the five entries `m[0][0]`, `m[1][1]`, `m[2][2]`, `m[3][2]`,
`m[2][3]` are assigned. -/
def perspective (tanF : F32 → F32) (fov aspect near far : F32) : Mat4 :=
  let scale0 := mul (tanF (degToRad (mul fov (flit (1/2))))) near
  let right := mul aspect scale0
  let top := scale0
  ⟨⟨div near right, F32.fin 0, F32.fin 0, F32.fin 0⟩,
   ⟨F32.fin 0, div near top, F32.fin 0, F32.fin 0⟩,
   ⟨F32.fin 0, F32.fin 0, div (add far near).neg (sub far near), flit (-1)⟩,
   ⟨F32.fin 0, F32.fin 0, div (mul (mul (flit (-2)) far) near) (sub far near), F32.fin 0⟩⟩

/-- The spec's concrete scenario `QM_perspective(90, 1.0, 0.1, 100.0)`
(the float literal `0.1f` is the compile-time-rounded `flit (1/10)`). -/
def perspTest (tanF : F32 → F32) : Mat4 :=
  perspective tanF (F32.fin 90) (F32.fin 1) (flit (1/10)) (F32.fin 100)

/-- The five entries `QM_perspective` assigns, as (column, row) pairs. -/
def perspAssigned : List (Fin 4 × Fin 4) := [(0, 0), (1, 1), (2, 2), (3, 2), (2, 3)]

end Mat4

/-- Modelled from the spec: the host math library's `sinf`, of which the
repository's code only relies (in the claims below) on the C-standard exact
case `sin(±0) = ±0`; all other inputs are left unspecified (NaN
placeholder, never reached by the concrete evaluations below). -/
def sinfModel : F32 → F32 := fun x => if x = F32.fin 0 then F32.fin 0 else F32.nan

/-- Modelled from the spec: the host math library's `acosf`, of which the
code below only relies on the C-standard exact case `acos(1) = +0`; all
other inputs are left unspecified (NaN placeholder, never reached by the
concrete evaluations below). -/
def acosfModel : F32 → F32 := fun x => if x = F32.fin 1 then F32.fin 0 else F32.nan

/-! ## Foundation lemmas about the float model -/

namespace F32

theorem nlogAux_eq_log (fuel : ℕ) : ∀ n : ℕ, n ≤ fuel → nlogAux fuel n = Nat.log 2 n := by
  induction fuel with
  | zero =>
    intro n hn
    have hn0 : n = 0 := by omega
    subst hn0
    simp [nlogAux]
  | succ fuel ih =>
    intro n hn
    by_cases h2 : 2 ≤ n
    · have hdiv : n / 2 ≤ fuel := by
        have := Nat.div_lt_self (show 0 < n by omega) (show 1 < 2 by omega)
        omega
      simp only [nlogAux, if_pos h2, ih _ hdiv]
      rw [Nat.log_of_one_lt_of_le one_lt_two h2]
    · simp only [nlogAux, if_neg h2]
      rw [Nat.log_of_lt (by omega)]

theorem nlog_eq_log (n : ℕ) : nlog n = Nat.log 2 n := nlogAux_eq_log n n le_rfl

theorem nclogAux_eq_clog (fuel : ℕ) : ∀ n : ℕ, n ≤ fuel → nclogAux fuel n = Nat.clog 2 n := by
  induction fuel with
  | zero =>
    intro n hn
    have hn0 : n = 0 := by omega
    subst hn0
    simp [nclogAux]
  | succ fuel ih =>
    intro n hn
    by_cases h2 : 2 ≤ n
    · have hdiv : (n + 1) / 2 ≤ fuel := by
        have : (n + 1) / 2 < n := by
          rw [Nat.div_lt_iff_lt_mul (by omega)]
          omega
        omega
      simp only [nclogAux, if_pos h2, ih _ hdiv]
      rw [Nat.clog_of_two_le one_lt_two h2]
      have he : n + 2 - 1 = n + 1 := by omega
      rw [he]
    · simp only [nclogAux, if_neg h2]
      rw [Nat.clog_of_right_le_one (by omega)]

theorem nclog_eq_clog (n : ℕ) : nclog n = Nat.clog 2 n := nclogAux_eq_clog n n le_rfl

theorem pow2Aux_eq (fuel : ℕ) : ∀ n : ℕ, n ≤ fuel → pow2Aux fuel n = 2 ^ n := by
  induction fuel with
  | zero =>
    intro n hn
    have h0 : n = 0 := by omega
    subst h0
    simp [pow2Aux]
  | succ fuel ih =>
    intro n hn
    by_cases h0 : n = 0
    · subst h0
      simp [pow2Aux]
    · have hdiv : n / 2 ≤ fuel := by
        have := Nat.div_lt_self (show 0 < n by omega) (show 1 < 2 by omega)
        omega
      by_cases he : n % 2 = 0
      · simp only [pow2Aux, if_neg h0, if_pos he, ih _ hdiv]
        rw [← pow_add]
        congr 1
        omega
      · simp only [pow2Aux, if_neg h0, if_neg he, ih _ hdiv]
        rw [← pow_add, ← pow_succ']
        congr 1
        omega

theorem pow2_eq (n : ℕ) : pow2 n = 2 ^ n := pow2Aux_eq n n le_rfl

theorem pow2z_eq (s : ℤ) : pow2z s = (2:ℚ) ^ s := by
  rcases le_or_lt 0 s with h | h
  · rw [pow2z, if_pos h, pow2_eq, ← zpow_natCast]
    congr 1
    omega
  · rw [pow2z, if_neg (not_le.mpr h), pow2_eq, ← zpow_natCast, ← zpow_neg]
    congr 1
    omega

/-- `roundPos` with its powers of two written as `zpow`/`pow` (for use in
proofs). -/
theorem roundPos_eq_zform (q : ℚ) : roundPos q =
    if (rint (q / 2 ^ scaleOf q) : ℚ) * 2 ^ scaleOf q < 2 ^ (128:ℕ)
    then fin ((rint (q / 2 ^ scaleOf q) : ℚ) * 2 ^ scaleOf q)
    else inf := by
  rw [roundPos, pow2z_eq, pow2_eq]

theorem ilog2_eq_log (q : ℚ) : ilog2 q = Int.log 2 q := by
  by_cases h : 1 ≤ q
  · rw [ilog2, if_pos h, Int.log_of_one_le_right _ h, nlog_eq_log]
  · rw [ilog2, if_neg h, Int.log_of_right_le_one _ (le_of_not_le h), nclog_eq_clog]

theorem rint_floor_le (q : ℚ) : ⌊q⌋ ≤ rint q := by
  unfold rint
  split_ifs <;> omega

theorem rint_le_floor_add_one (q : ℚ) : rint q ≤ ⌊q⌋ + 1 := by
  unfold rint
  split_ifs <;> omega

theorem rint_intCast (n : ℤ) : rint (n : ℚ) = n := by
  unfold rint
  rw [Int.floor_intCast]
  norm_num

theorem rint_nonneg {q : ℚ} (hq : 0 ≤ q) : 0 ≤ rint q := by
  have h := Int.floor_nonneg.mpr hq
  have := rint_floor_le q
  omega

theorem neg_invol (a : F32) : a.neg.neg = a := by
  cases a <;> simp [neg]

theorem roundQ_zero : roundQ 0 = fin 0 := by
  unfold roundQ
  norm_num

theorem roundPos_ne_nan (q : ℚ) : roundPos q ≠ nan := by
  rw [roundPos_eq_zform]
  split <;> simp

theorem neg_ne_nan {a : F32} (h : a ≠ nan) : a.neg ≠ nan := by
  cases a <;> simp [neg] at h ⊢

theorem roundQ_ne_nan (q : ℚ) : roundQ q ≠ nan := by
  unfold roundQ
  split_ifs with h1 h2
  · exact roundPos_ne_nan q
  · exact neg_ne_nan (roundPos_ne_nan (-q))
  · simp

theorem roundQ_neg_eq (q : ℚ) : roundQ (-q) = (roundQ q).neg := by
  rcases lt_trichotomy q 0 with h | h | h
  · rw [roundQ, if_pos (by linarith), roundQ, if_neg (by linarith), if_pos h, neg_invol]
  · subst h
    rw [neg_zero, roundQ_zero]
    simp [neg]
  · rw [roundQ, if_neg (by linarith), if_pos (by linarith), neg_neg, roundQ, if_pos h]

theorem fmul_comm (a b : F32) : mul a b = mul b a := by
  cases a <;> cases b <;> simp [mul, mul_comm]

theorem sgnInfNeg_eq_neg (x : ℚ) : sgnInfNeg x = (sgnInf x).neg := by
  unfold sgnInf sgnInfNeg
  split_ifs <;> rfl

theorem sgnInf_neg (x : ℚ) : sgnInf (-x) = (sgnInf x).neg := by
  rcases lt_trichotomy x 0 with h | h | h
  · rw [sgnInf, if_neg (by simpa using h.ne), if_pos (by linarith),
      sgnInf, if_neg h.ne, if_neg (by linarith)]
    rfl
  · subst h
    simp [sgnInf, neg]
  · rw [sgnInf, if_neg (by simpa using h.ne'), if_neg (by linarith),
      sgnInf, if_neg h.ne', if_pos h]
    rfl

theorem sgnInfNeg_neg (x : ℚ) : sgnInfNeg (-x) = (sgnInfNeg x).neg := by
  rw [sgnInfNeg_eq_neg, sgnInf_neg, sgnInfNeg_eq_neg]

theorem fmul_neg_left (a b : F32) : mul a.neg b = (mul a b).neg := by
  cases a with
  | fin x =>
    cases b with
    | fin y =>
      show roundQ (-x * y) = (roundQ (x * y)).neg
      rw [neg_mul, roundQ_neg_eq]
    | inf => exact sgnInf_neg x
    | neginf => exact sgnInfNeg_neg x
    | nan => rfl
  | inf =>
    cases b with
    | fin y => exact sgnInfNeg_eq_neg y
    | inf => rfl
    | neginf => rfl
    | nan => rfl
  | neginf =>
    cases b with
    | fin y =>
      show sgnInf y = (sgnInfNeg y).neg
      rw [sgnInfNeg_eq_neg, neg_invol]
    | inf => rfl
    | neginf => rfl
    | nan => rfl
  | nan => cases b <;> rfl

theorem fmul_neg_right (a b : F32) : mul a b.neg = (mul a b).neg := by
  rw [fmul_comm a b.neg, fmul_neg_left, fmul_comm b a]

theorem fmul_neg_neg (a b : F32) : mul a.neg b.neg = mul a b := by
  rw [fmul_neg_left, fmul_neg_right, neg_invol]

theorem ilog_unique (e : ℤ) (x : ℚ) (hx : 0 < x)
    (h1 : (2:ℚ) ^ e ≤ x) (h2 : x < 2 ^ (e + 1)) : Int.log 2 x = e := by
  have hl : e ≤ Int.log 2 x :=
    (Int.zpow_le_iff_le_log one_lt_two hx).mp (by exact_mod_cast h1)
  have hu : Int.log 2 x < e + 1 := by
    by_contra hcon
    push_neg at hcon
    have hle : ((2:ℕ):ℚ) ^ (e + 1) ≤ x := (Int.zpow_le_iff_le_log one_lt_two hx).mpr hcon
    have : (2:ℚ) ^ (e + 1) ≤ x := by exact_mod_cast hle
    linarith
  omega

theorem ilog2_bracket (q : ℚ) (hq : 0 < q) :
    (2:ℚ) ^ ilog2 q ≤ q ∧ q < (2:ℚ) ^ (ilog2 q + 1) := by
  rw [ilog2_eq_log]
  constructor
  · exact_mod_cast Int.zpow_log_le_self one_lt_two hq
  · exact_mod_cast Int.lt_zpow_succ_log_self one_lt_two q

theorem scaleOf_y_lt (q : ℚ) (hq : 0 < q) : q / 2 ^ scaleOf q < 2 ^ (24:ℤ) := by
  have hbr := ilog2_bracket q hq
  rcases le_or_lt (ilog2 q - 23) (-149) with hc | hc
  · have hs : scaleOf q = -149 := max_eq_right hc
    have hmono : (2:ℚ) ^ (ilog2 q + 1) ≤ (2:ℚ) ^ (-125 : ℤ) :=
      zpow_le_zpow_right₀ one_le_two (by omega)
    rw [hs]
    have hq2 : q < (2:ℚ) ^ (-125 : ℤ) := lt_of_lt_of_le hbr.2 hmono
    rw [div_lt_iff₀ (zpow_pos (by norm_num) _)]
    calc q < (2:ℚ) ^ (-125 : ℤ) := hq2
    _ = 2 ^ (24:ℤ) * 2 ^ (-149:ℤ) := by
        rw [← zpow_add₀ (two_ne_zero)]
        norm_num
  · have hs : scaleOf q = ilog2 q - 23 := max_eq_left (by omega)
    rw [hs, div_lt_iff₀ (zpow_pos (by norm_num) _)]
    calc q < (2:ℚ) ^ (ilog2 q + 1) := hbr.2
    _ = 2 ^ (24:ℤ) * 2 ^ (ilog2 q - 23) := by
        rw [← zpow_add₀ (two_ne_zero)]
        congr 1
        omega

theorem scaleOf_y_ge (q : ℚ) (hq : 0 < q) (hc : -149 < ilog2 q - 23) :
    (2:ℚ) ^ (23:ℤ) ≤ q / 2 ^ scaleOf q := by
  have hbr := ilog2_bracket q hq
  have hs : scaleOf q = ilog2 q - 23 := max_eq_left (by omega)
  rw [hs, le_div_iff₀ (zpow_pos (by norm_num) _)]
  calc (2:ℚ) ^ (23:ℤ) * 2 ^ (ilog2 q - 23) = 2 ^ ilog2 q := by
        rw [← zpow_add₀ (two_ne_zero)]
        congr 1
        omega
  _ ≤ q := hbr.1

theorem roundPos_cases (q : ℚ) (hq : 0 < q) :
    roundPos q = inf ∨
    ∃ m s : ℤ, roundPos q = fin ((m : ℚ) * 2 ^ s) ∧
      0 ≤ m ∧ m ≤ 2 ^ 24 ∧ (-149 : ℤ) ≤ s ∧ (m : ℚ) * 2 ^ s < 2 ^ 128 ∧
      (m < 2 ^ 23 → s = -149) := by
  by_cases hov : (rint (q / 2 ^ scaleOf q) : ℚ) * 2 ^ scaleOf q < 2 ^ 128
  · right
    refine ⟨rint (q / 2 ^ scaleOf q), scaleOf q,
      by rw [roundPos_eq_zform, if_pos hov], ?_, ?_, le_max_right _ _, hov, ?_⟩
    · exact rint_nonneg (le_of_lt (div_pos hq (zpow_pos (by norm_num) _)))
    · have hy := scaleOf_y_lt q hq
      have hfl : ⌊q / 2 ^ scaleOf q⌋ < 2 ^ 24 := by
        rw [Int.floor_lt]
        exact_mod_cast hy
      have := rint_le_floor_add_one (q / 2 ^ scaleOf q)
      omega
    · intro hm
      rcases le_or_lt (ilog2 q - 23) (-149) with hc | hc
      · exact max_eq_right hc
      · exfalso
        have hylb := scaleOf_y_ge q hq hc
        have hfl : (2 ^ 23 : ℤ) ≤ ⌊q / 2 ^ scaleOf q⌋ := by
          rw [Int.le_floor]
          exact_mod_cast hylb
        have := rint_floor_le (q / 2 ^ scaleOf q)
        omega
  · left
    rw [roundPos_eq_zform, if_neg hov]

theorem ilog2_of_bracket (c : ℚ) (e : ℤ) (hc : 0 < c)
    (h1 : (2:ℚ) ^ e ≤ c) (h2 : c < 2 ^ (e + 1)) : ilog2 c = e := by
  rw [ilog2_eq_log]
  exact ilog_unique e c hc h1 h2

theorem two_zpow_lt_pow128 {e : ℤ} (he : e < 128) : (2:ℚ) ^ e < 2 ^ (128:ℕ) := by
  have h2 : (2:ℚ) ^ (128:ℤ) = 2 ^ (128:ℕ) := by
    rw [← zpow_natCast]
    norm_num
  have h := zpow_lt_zpow_right₀ (one_lt_two (α := ℚ)) he
  linarith

theorem roundPos_int_quot (c : ℚ) (u M : ℤ) (hu : scaleOf c = u)
    (hM : c / 2 ^ u = (M : ℚ)) (hov : c < 2 ^ (128:ℕ)) : roundPos c = fin c := by
  have hc2 : (M : ℚ) * 2 ^ u = c := by
    rw [← hM, div_mul_cancel₀ _ (zpow_ne_zero _ (two_ne_zero))]
  rw [roundPos_eq_zform, hu, hM, rint_intCast, hc2]
  exact if_pos hov

theorem roundPos_fixed (m s : ℤ) (hm1 : 2 ^ 23 ≤ m) (hm2 : m < 2 ^ 24)
    (hs : (-149:ℤ) ≤ s) (hov : (m:ℚ) * 2 ^ s < 2 ^ (128:ℕ)) :
    roundPos ((m:ℚ) * 2 ^ s) = fin ((m:ℚ) * 2 ^ s) := by
  have hsp : (0:ℚ) < 2 ^ s := zpow_pos (by norm_num) s
  have hml : (2:ℚ) ^ (23:ℤ) ≤ (m:ℚ) := by
    have : ((2 ^ 23 : ℤ) : ℚ) ≤ (m:ℚ) := Int.cast_le.mpr hm1
    calc (2:ℚ) ^ (23:ℤ) = ((2 ^ 23 : ℤ) : ℚ) := by push_cast; norm_num
    _ ≤ (m:ℚ) := this
  have hmu : (m:ℚ) < (2:ℚ) ^ (24:ℤ) := by
    have : (m:ℚ) < ((2 ^ 24 : ℤ) : ℚ) := Int.cast_lt.mpr hm2
    calc (m:ℚ) < ((2 ^ 24 : ℤ) : ℚ) := this
    _ = (2:ℚ) ^ (24:ℤ) := by push_cast; norm_num
  have hc : (0:ℚ) < (m:ℚ) * 2 ^ s := by
    have : (0:ℚ) < (m:ℚ) := lt_of_lt_of_le (zpow_pos (by norm_num) _) hml
    positivity
  have hlog : ilog2 ((m:ℚ) * 2 ^ s) = 23 + s := by
    apply ilog2_of_bracket _ _ hc
    · have h23 : (2:ℚ) ^ (23 + s) = 2 ^ (23:ℤ) * 2 ^ s := zpow_add₀ two_ne_zero _ _
      rw [h23]
      exact mul_le_mul_of_nonneg_right hml (le_of_lt hsp)
    · have h24 : (2:ℚ) ^ (23 + s + 1) = 2 ^ (24:ℤ) * 2 ^ s := by
        rw [← zpow_add₀ two_ne_zero]
        congr 1
        omega
      rw [h24]
      exact mul_lt_mul_of_pos_right hmu hsp
  refine roundPos_int_quot _ s m ?_ ?_ hov
  · rw [scaleOf, hlog]
    have h3 : 23 + s - 23 = s := by omega
    rw [h3]
    exact max_eq_left hs
  · exact mul_div_cancel_right₀ _ (zpow_ne_zero _ two_ne_zero)

theorem roundPos_fixed_sub (m : ℤ) (hm1 : 1 ≤ m) (hm2 : m ≤ 2 ^ 23) :
    roundPos ((m:ℚ) * 2 ^ (-149:ℤ)) = fin ((m:ℚ) * 2 ^ (-149:ℤ)) := by
  have hsp : (0:ℚ) < 2 ^ (-149:ℤ) := zpow_pos (by norm_num) _
  have hm0 : (0:ℚ) < (m:ℚ) := by exact_mod_cast hm1
  have hmu : (m:ℚ) ≤ (2:ℚ) ^ (23:ℤ) := by
    have : (m:ℚ) ≤ ((2 ^ 23 : ℤ) : ℚ) := Int.cast_le.mpr hm2
    calc (m:ℚ) ≤ ((2 ^ 23 : ℤ) : ℚ) := this
    _ = (2:ℚ) ^ (23:ℤ) := by push_cast; norm_num
  have hc : (0:ℚ) < (m:ℚ) * 2 ^ (-149:ℤ) := by positivity
  have hcle : (m:ℚ) * 2 ^ (-149:ℤ) ≤ (2:ℚ) ^ (-126:ℤ) := by
    calc (m:ℚ) * 2 ^ (-149:ℤ) ≤ 2 ^ (23:ℤ) * 2 ^ (-149:ℤ) :=
          mul_le_mul_of_nonneg_right hmu (le_of_lt hsp)
    _ = (2:ℚ) ^ (-126:ℤ) := by
          rw [← zpow_add₀ two_ne_zero]
          norm_num
  have hlog : ilog2 ((m:ℚ) * 2 ^ (-149:ℤ)) ≤ -126 := by
    by_contra hcon
    push_neg at hcon
    have hb := (ilog2_bracket _ hc).1
    have h1 : (2:ℚ) ^ (-125:ℤ) ≤ (m:ℚ) * 2 ^ (-149:ℤ) :=
      le_trans (zpow_le_zpow_right₀ one_le_two (by omega)) hb
    have h2 : (2:ℚ) ^ (-126:ℤ) < (2:ℚ) ^ (-125:ℤ) :=
      zpow_lt_zpow_right₀ one_lt_two (by omega)
    linarith
  refine roundPos_int_quot _ (-149) m ?_ ?_ ?_
  · rw [scaleOf]
    exact max_eq_right (by omega)
  · exact mul_div_cancel_right₀ _ (zpow_ne_zero _ two_ne_zero)
  · calc (m:ℚ) * 2 ^ (-149:ℤ) ≤ (2:ℚ) ^ (-126:ℤ) := hcle
    _ < 2 ^ (128:ℕ) := two_zpow_lt_pow128 (by omega)

theorem roundPos_out (q c : ℚ) (hq : 0 < q) (h : roundPos q = fin c) :
    roundQ c = fin c := by
  rcases roundPos_cases q hq with hinf | ⟨m, s, heq, hm0, hm24, hs, hov, hsmall⟩
  · rw [hinf] at h
    exact absurd h (by simp)
  · rw [heq] at h
    have hc : c = (m:ℚ) * 2 ^ s := by
      have := fin.injEq ((m:ℚ) * 2 ^ s) c
      simp only [this] at h
      exact h.symm
    subst hc
    rcases eq_or_lt_of_le hm0 with hm0' | hm0'
    · rw [← hm0']
      simp only [Int.cast_zero, zero_mul]
      exact roundQ_zero
    · have hcpos : (0:ℚ) < (m:ℚ) * 2 ^ s := by
        have : (0:ℚ) < (m:ℚ) := by exact_mod_cast hm0'
        positivity
      rw [roundQ, if_pos hcpos]
      by_cases hm23 : m < 2 ^ 23
      · have hs149 := hsmall hm23
        subst hs149
        exact roundPos_fixed_sub m (by omega) (by omega)
      · push_neg at hm23
        rcases eq_or_lt_of_le hm24 with hm24' | hm24'
        · -- m = 2 ^ 24: rewrite as 2 ^ 23 * 2 ^ (s + 1)
          have hpay : (m:ℚ) * 2 ^ s = ((2 ^ 23 : ℤ):ℚ) * 2 ^ (s + 1) := by
            rw [hm24']
            push_cast
            rw [zpow_add_one₀ (two_ne_zero)]
            ring
          rw [hpay] at hov ⊢
          exact roundPos_fixed _ _ (le_refl _) (by norm_num) (by omega) hov
        · exact roundPos_fixed m s hm23 hm24' hs hov

theorem roundQ_idem (x c : ℚ) (h : roundQ x = fin c) : roundQ c = fin c := by
  rw [roundQ] at h
  split_ifs at h with h1 h2
  · exact roundPos_out x c h1 h
  · rcases hr : roundPos (-x) with d | _ | _ | _ <;> rw [hr] at h
    · have hd : -d = c := by
        simp only [neg, fin.injEq] at h
        exact h
      have hpos := roundPos_out (-x) d (by linarith) hr
      rw [← hd, roundQ_neg_eq, hpos]
      rfl
    · exact absurd h (by simp [neg])
    · exact absurd h (by simp [neg])
    · exact absurd h (by simp [neg])
  · have hc : c = 0 := by
      simp only [fin.injEq] at h
      exact h.symm
    rw [hc]
    exact roundQ_zero

theorem roundPos_isFin (q : ℚ) (hq : 0 < q) (hlt : q < 2 ^ (127:ℤ)) :
    ∃ c, roundPos q = fin c := by
  have hsp : (0:ℚ) < 2 ^ scaleOf q := zpow_pos (by norm_num) _
  have hm_ub : (rint (q / 2 ^ scaleOf q) : ℚ) ≤ q / 2 ^ scaleOf q + 1 := by
    have h1 := rint_le_floor_add_one (q / 2 ^ scaleOf q)
    have h2 := Int.floor_le (q / 2 ^ scaleOf q)
    have h3 : ((⌊q / 2 ^ scaleOf q⌋ + 1 : ℤ):ℚ) ≤ q / 2 ^ scaleOf q + 1 := by
      push_cast
      linarith
    calc (rint (q / 2 ^ scaleOf q) : ℚ) ≤ ((⌊q / 2 ^ scaleOf q⌋ + 1 : ℤ):ℚ) := by
          exact_mod_cast h1
    _ ≤ q / 2 ^ scaleOf q + 1 := h3
  have hys : q / 2 ^ scaleOf q * 2 ^ scaleOf q = q := div_mul_cancel₀ q (ne_of_gt hsp)
  have hslog : scaleOf q ≤ 103 := by
    have hlog : ilog2 q ≤ 126 := by
      by_contra hcon
      push_neg at hcon
      have hb := (ilog2_bracket q hq).1
      have h127 : (2:ℚ) ^ (127:ℤ) ≤ 2 ^ ilog2 q := zpow_le_zpow_right₀ one_le_two (by omega)
      linarith
    rw [scaleOf]
    exact max_le (by omega) (by norm_num)
  have hfin : (rint (q / 2 ^ scaleOf q) : ℚ) * 2 ^ scaleOf q < 2 ^ (128:ℕ) := by
    have h2s : (2:ℚ) ^ scaleOf q ≤ 2 ^ (103:ℤ) := zpow_le_zpow_right₀ one_le_two hslog
    have hbound : (rint (q / 2 ^ scaleOf q) : ℚ) * 2 ^ scaleOf q ≤ q + 2 ^ scaleOf q := by
      calc (rint (q / 2 ^ scaleOf q) : ℚ) * 2 ^ scaleOf q
          ≤ (q / 2 ^ scaleOf q + 1) * 2 ^ scaleOf q :=
            mul_le_mul_of_nonneg_right hm_ub (le_of_lt hsp)
      _ = q + 2 ^ scaleOf q := by rw [add_mul, one_mul, hys]
    have ha : (2:ℚ) ^ (103:ℤ) < 2 ^ (127:ℤ) := zpow_lt_zpow_right₀ one_lt_two (by omega)
    have hb : (2:ℚ) ^ (127:ℤ) * 2 = 2 ^ (128:ℤ) := (zpow_add_one₀ two_ne_zero 127).symm
    have hc : (2:ℚ) ^ (128:ℤ) = 2 ^ (128:ℕ) := by
      rw [← zpow_natCast]
      norm_num
    linarith
  exact ⟨_, by rw [roundPos_eq_zform]; exact if_pos hfin⟩

theorem roundQ_isFin_of_nonneg (q : ℚ) (h0 : 0 ≤ q) (hlt : q < 2 ^ (127:ℤ)) :
    ∃ c, roundQ q = fin c := by
  rcases eq_or_lt_of_le h0 with h | h
  · exact ⟨0, by rw [← h, roundQ_zero]⟩
  · obtain ⟨c, hc⟩ := roundPos_isFin q h hlt
    exact ⟨c, by rw [roundQ, if_pos h]; exact hc⟩

theorem fmul_one_roundQ (x : ℚ) : mul (fin 1) (roundQ x) = roundQ x := by
  rcases hr : roundQ x with c | _ | _ | _
  · show roundQ (1 * c) = fin c
    rw [one_mul]
    exact roundQ_idem x c hr
  · show sgnInf 1 = inf
    simp [sgnInf]
  · show sgnInfNeg 1 = neginf
    simp [sgnInfNeg]
  · exact absurd hr (roundQ_ne_nan x)

theorem feq_refl_of_ne_nan (a : F32) (h : a ≠ nan) : feq a a = true := by
  cases a
  · simp [feq]
  · rfl
  · rfl
  · exact absurd rfl h

theorem fdiv_fin_ne_nan (n : ℚ) (hn : n ≠ 0) (b : F32) (hb : b ≠ nan) :
    div (fin n) b ≠ nan := by
  cases b with
  | fin d =>
    show (if d = 0 then (if n = 0 then nan else if 0 < n then inf else neginf)
      else roundQ (n / d)) ≠ nan
    split_ifs <;> first | exact roundQ_ne_nan _ | simp_all
  | inf => simp [div]
  | neginf => simp [div]
  | nan => exact absurd rfl hb

theorem fmul_fin_zero (c : ℚ) : mul (fin c) (fin 0) = fin 0 := by
  show roundQ (c * 0) = fin 0
  rw [mul_zero, roundQ_zero]

theorem fmul_zero_inf : mul (fin 0) inf = nan := by
  simp [mul, sgnInf]

theorem fsub_fin (a b : ℚ) : sub (fin a) (fin b) = roundQ (a - b) := by
  show roundQ (a + -b) = roundQ (a - b)
  ring_nf

theorem mul_fin (a b : ℚ) : mul (fin a) (fin b) = roundQ (a * b) := rfl

theorem add_fin (a b : ℚ) : add (fin a) (fin b) = roundQ (a + b) := rfl

theorem neg_fin (a : ℚ) : (fin a).neg = fin (-a) := rfl

theorem div_fin (a b : ℚ) (hb : b ≠ 0) : div (fin a) (fin b) = roundQ (a / b) := by
  have h : div (fin a) (fin b) =
      if b = 0 then (if a = 0 then nan else if 0 < a then inf else neginf)
      else roundQ (a / b) := rfl
  rw [h, if_neg hb]

theorem div_fin_zero_pos (a : ℚ) (ha : 0 < a) : div (fin a) (fin 0) = inf := by
  have h : div (fin a) (fin 0) =
      if (0:ℚ) = 0 then (if a = 0 then nan else if 0 < a then inf else neginf)
      else roundQ (a / 0) := rfl
  rw [h, if_pos rfl, if_neg (ne_of_gt ha), if_pos ha]

theorem div_zero_zero : div (fin 0) (fin 0) = nan := by
  have h : div (fin 0) (fin 0) =
      if (0:ℚ) = 0 then (if (0:ℚ) = 0 then nan else if 0 < (0:ℚ) then inf else neginf)
      else roundQ ((0:ℚ) / 0) := rfl
  rw [h, if_pos rfl, if_pos rfl]

theorem sqrt_fin_zero : F32.sqrt (fin 0) = fin 0 := by
  have h : F32.sqrt (fin 0) =
      if (0:ℚ) < 0 then nan else if (0:ℚ) = 0 then fin 0 else sqrtPos 0 := rfl
  rw [h, if_neg (lt_irrefl _), if_pos rfl]

/-- `rint` at a rational strictly between two half-integers. -/
theorem rint_eq_near (y : ℚ) (n : ℤ) (h1 : (n:ℚ) - 1/2 < y) (h2 : y < (n:ℚ) + 1/2) :
    rint y = n := by
  rcases le_or_lt (n:ℚ) y with hge | hlt
  · have hfl : ⌊y⌋ = n := by
      rw [Int.floor_eq_iff]
      refine ⟨hge, by linarith⟩
    unfold rint
    rw [hfl, if_pos (by linarith)]
  · have hfl : ⌊y⌋ = n - 1 := by
      rw [Int.floor_eq_iff]
      constructor
      · push_cast
        linarith
      · push_cast
        linarith
    unfold rint
    rw [hfl, if_neg (by push_cast; linarith), if_pos (by push_cast; linarith)]
    omega

/-- Evaluation lemma for `roundQ` at a positive rational in the normal
range: supply the binade exponent `e`, the rounded mantissa `m`, and the
resulting float value `r`. -/
theorem roundQ_eval (q r : ℚ) (e m : ℤ)
    (h0 : 0 < q) (hbr1 : (2:ℚ) ^ e ≤ q) (hbr2 : q < 2 ^ (e + 1))
    (hel : -126 ≤ e)
    (hm1 : (m:ℚ) - 1/2 < q / 2 ^ (e - 23)) (hm2 : q / 2 ^ (e - 23) < (m:ℚ) + 1/2)
    (hr : (m:ℚ) * 2 ^ (e - 23) = r) (hov : r < 2 ^ (128:ℕ)) :
    roundQ q = fin r := by
  have hloge : ilog2 q = e := ilog2_of_bracket q e h0 hbr1 hbr2
  have hsc : scaleOf q = e - 23 := by
    rw [scaleOf, hloge]
    exact max_eq_left (by omega)
  rw [roundQ, if_pos h0, roundPos_eq_zform, hsc, rint_eq_near _ m hm1 hm2, hr, if_pos hov]

/-- Every integer up to `2^24` is exactly representable and rounds to
itself. -/
theorem roundQ_intCast (k : ℤ) (h0 : 0 ≤ k) (h24 : k ≤ 2 ^ 24) :
    roundQ (k:ℚ) = fin (k:ℚ) := by
  rcases eq_or_lt_of_le h0 with h | h
  · rw [← h]
    push_cast
    exact roundQ_zero
  · have hkq : (0:ℚ) < (k:ℚ) := by exact_mod_cast h
    rw [roundQ, if_pos hkq]
    have hbr := ilog2_bracket (k:ℚ) hkq
    have hcast24 : ((2 ^ 24 : ℤ):ℚ) = (2:ℚ) ^ (24:ℤ) := by
      norm_num
    have hk24 : (k:ℚ) ≤ (2:ℚ) ^ (24:ℤ) := by
      rw [← hcast24]
      exact_mod_cast h24
    have he0 : 0 ≤ ilog2 (k:ℚ) := by
      by_contra hcon
      push_neg at hcon
      have h1 : (2:ℚ) ^ (ilog2 (k:ℚ) + 1) ≤ 2 ^ (0:ℤ) :=
        zpow_le_zpow_right₀ one_le_two (by omega)
      have h2 : (1:ℚ) ≤ (k:ℚ) := by exact_mod_cast h
      rw [zpow_zero] at h1
      linarith [hbr.2]
    have he24 : ilog2 (k:ℚ) ≤ 24 := by
      by_contra hcon
      push_neg at hcon
      have h1 : (2:ℚ) ^ (25:ℤ) ≤ 2 ^ ilog2 (k:ℚ) :=
        zpow_le_zpow_right₀ one_le_two (by omega)
      have h4 : (2:ℚ) ^ (24:ℤ) < 2 ^ (25:ℤ) := zpow_lt_zpow_right₀ one_lt_two (by omega)
      linarith [hbr.1]
    have hklt : (k:ℚ) < 2 ^ (128:ℕ) := by
      have h5 : (2:ℚ) ^ (24:ℤ) < 2 ^ (128:ℕ) := two_zpow_lt_pow128 (by omega)
      linarith
    rcases le_or_lt (ilog2 (k:ℚ)) 23 with he23 | he24'
    · refine roundPos_int_quot _ (ilog2 (k:ℚ) - 23)
        (k * 2 ^ (23 - ilog2 (k:ℚ)).toNat) ?_ ?_ hklt
      · rw [scaleOf]
        exact max_eq_left (by omega)
      · push_cast
        rw [div_eq_mul_inv, ← zpow_neg, neg_sub]
        congr 1
        rw [← zpow_natCast]
        congr 1
        omega
    · have he' : ilog2 (k:ℚ) = 24 := by omega
      have hk : (k:ℚ) = (2:ℚ) ^ (24:ℤ) := by
        have h1 := hbr.1
        rw [he'] at h1
        linarith
      refine roundPos_int_quot _ 1 (2 ^ 23) ?_ ?_ hklt
      · rw [scaleOf, he']
        norm_num
      · rw [hk, ← zpow_sub₀ two_ne_zero]
        norm_num

theorem roundQ_one : roundQ 1 = fin 1 := by
  have h := roundQ_intCast 1 (by norm_num) (by norm_num)
  push_cast at h
  exact h

theorem roundQ_two : roundQ 2 = fin 2 := by
  have h := roundQ_intCast 2 (by norm_num) (by norm_num)
  push_cast at h
  exact h

theorem roundQ_three : roundQ 3 = fin 3 := by
  have h := roundQ_intCast 3 (by norm_num) (by norm_num)
  push_cast at h
  exact h

theorem roundQ_four : roundQ 4 = fin 4 := by
  have h := roundQ_intCast 4 (by norm_num) (by norm_num)
  push_cast at h
  exact h

theorem roundQ_quarter : roundQ (1/4) = fin (1/4) := by
  refine roundQ_eval (1/4) (1/4) (-2) (2^23) (by norm_num) (by norm_num) (by norm_num)
    (by norm_num) (by norm_num) (by norm_num) (by norm_num) (by norm_num)

theorem roundQ_half : roundQ (1/2) = fin (1/2) := by
  refine roundQ_eval (1/2) (1/2) (-1) (2^23) (by norm_num) (by norm_num) (by norm_num)
    (by norm_num) (by norm_num) (by norm_num) (by norm_num) (by norm_num)

theorem roundQ_neg_one : roundQ (-1) = fin (-1) := by
  rw [roundQ_neg_eq, roundQ_one]
  rfl

end F32

/-- A four-term multiply-accumulate is unchanged when every product's two
operands are swapped (float multiplication is exactly commutative). -/
theorem mulAcc4_comm (a0 a1 a2 a3 b0 b1 b2 b3 : F32) :
    F32.add (F32.add (F32.add (F32.mul a0 b0) (F32.mul a1 b1)) (F32.mul a2 b2))
        (F32.mul a3 b3) =
      F32.add (F32.add (F32.add (F32.mul b0 a0) (F32.mul b1 a1)) (F32.mul b2 a2))
        (F32.mul b3 a3) := by
  rw [F32.fmul_comm a0, F32.fmul_comm a1, F32.fmul_comm a2, F32.fmul_comm a3]

/-! ## The claims -/

/-- C1 (code bug): the claim says `inverse(q)` is the conjugate scaled by
`1/dot(q,q)`, but the compiled SSE path discards the result of its
`_mm_div_ps` and returns the bare conjugate.  At `q = (0,0,0,2)` the code
returns `(0,0,0,2)` while the spec-mandated value is `(0,0,0,1/2)`. -/
theorem claim1_inverse_returns_unscaled_conjugate :
    Quat.inverse ⟨F32.fin 0, F32.fin 0, F32.fin 0, F32.fin 2⟩ =
      ⟨F32.fin 0, F32.fin 0, F32.fin 0, F32.fin 2⟩ ∧
    Quat.inverseSpec ⟨F32.fin 0, F32.fin 0, F32.fin 0, F32.fin 2⟩ =
      ⟨F32.fin 0, F32.fin 0, F32.fin 0, F32.fin (1/2)⟩ ∧
    Quat.inverse ⟨F32.fin 0, F32.fin 0, F32.fin 0, F32.fin 2⟩ ≠
      Quat.inverseSpec ⟨F32.fin 0, F32.fin 0, F32.fin 0, F32.fin 2⟩ := by
  norm_num [Quat.inverse, Quat.inverseSpec, Quat.conjugate, Quat.scale, Quat.dot,
    F32.neg_fin, F32.mul_fin, F32.add_fin, F32.div_fin, F32.roundQ_zero,
    F32.roundQ_four, F32.roundQ_quarter, F32.roundQ_half]

/-- C2: `normalize` on 2- and 3-dimensional vectors returns the zero vector
when the computed length is exactly 0 (the zero vector is returned
unchanged), while the 4-dimensional `normalize` has no guard: on the zero
4-vector every component is divided by zero, producing NaN (`0/0`)
components. -/
theorem claim2_normalize_zero_guard :
    (∀ v : Vec2, Vec2.length v = F32.fin 0 →
      Vec2.normalize v = ⟨F32.fin 0, F32.fin 0⟩) ∧
    (∀ v : Vec3, Vec3.length v = F32.fin 0 →
      Vec3.normalize v = ⟨F32.fin 0, F32.fin 0, F32.fin 0⟩) ∧
    Vec4.normalize ⟨F32.fin 0, F32.fin 0, F32.fin 0, F32.fin 0⟩ =
      ⟨F32.nan, F32.nan, F32.nan, F32.nan⟩ := by
  refine ⟨?_, ?_, ?_⟩
  · intro v h
    rw [Vec2.normalize, h]
    simp [F32.feq]
  · intro v h
    rw [Vec3.normalize, h]
    simp [F32.feq]
  · norm_num [Vec4.normalize, Vec4.divs, Vec4.length, Vec4.dot, F32.mul_fin,
      F32.add_fin, F32.roundQ_zero, F32.sqrt_fin_zero, F32.div_zero_zero]

/-- Witness for C2: the guarded branches at the zero vectors. -/
theorem claim2_normalize_zero_guard_witness :
    Vec2.normalize ⟨F32.fin 0, F32.fin 0⟩ = ⟨F32.fin 0, F32.fin 0⟩ ∧
    Vec3.normalize ⟨F32.fin 0, F32.fin 0, F32.fin 0⟩ =
      ⟨F32.fin 0, F32.fin 0, F32.fin 0⟩ :=
  ⟨claim2_normalize_zero_guard.1 ⟨F32.fin 0, F32.fin 0⟩
     (by norm_num [Vec2.length, Vec2.dot, F32.mul_fin, F32.add_fin, F32.roundQ_zero,
        F32.sqrt_fin_zero]),
   claim2_normalize_zero_guard.2.1 ⟨F32.fin 0, F32.fin 0, F32.fin 0⟩
     (by norm_num [Vec3.length, Vec3.dot, F32.mul_fin, F32.add_fin, F32.roundQ_zero,
        F32.sqrt_fin_zero])⟩

/-- Counterexample to C3 as stated: quaternion `normalize` at the zero
quaternion does not divide by zero in the SSE configuration; the guard is
active and the zero quaternion is returned unchanged (had the division been
taken, the components would have been `0/0 = NaN`). -/
theorem claim3_counterexample :
    Quat.normalize ⟨F32.fin 0, F32.fin 0, F32.fin 0, F32.fin 0⟩ =
      ⟨F32.fin 0, F32.fin 0, F32.fin 0, F32.fin 0⟩ ∧
    F32.div (F32.fin 0) (F32.fin 0) = F32.nan := by
  refine ⟨?_, F32.div_zero_zero⟩
  norm_num [Quat.normalize, Quat.length, Quat.dot, F32.mul_fin, F32.add_fin,
    F32.roundQ_zero, F32.sqrt_fin_zero, F32.feq]

/-- C3 (amended): quaternion `normalize` is guarded against zero length in
the SSE configuration as well - the `if (len != 0.0f)` test sits outside the
`#if QM_USE_SSE` block - so a quaternion of computed length 0 yields the
zero quaternion (the zero quaternion is returned unchanged), with no
division by zero. -/
theorem claim3_quat_normalize_guarded :
    ∀ q : Quat, Quat.length q = F32.fin 0 →
      Quat.normalize q = ⟨F32.fin 0, F32.fin 0, F32.fin 0, F32.fin 0⟩ := by
  intro q h
  rw [Quat.normalize, h]
  simp [F32.feq]

/-- Witness for the amended C3: the zero quaternion. -/
theorem claim3_quat_normalize_guarded_witness :
    Quat.normalize ⟨F32.fin 0, F32.fin 0, F32.fin 0, F32.fin 0⟩ =
      ⟨F32.fin 0, F32.fin 0, F32.fin 0, F32.fin 0⟩ :=
  claim3_quat_normalize_guarded ⟨F32.fin 0, F32.fin 0, F32.fin 0, F32.fin 0⟩
    (by norm_num [Quat.length, Quat.dot, F32.mul_fin, F32.add_fin, F32.roundQ_zero,
      F32.sqrt_fin_zero])

/-- C4: the SSE quaternion Hamilton product (broadcast, sign-mask via
`_mm_xor_ps` with `-0.0`, shuffle, accumulate) produces exactly the same
four components as the scalar formula, for all inputs, because IEEE
negation-by-sign-flip satisfies `(-a)*b = -(a*b)` and `x - y = x + (-y)`
exactly. -/
theorem claim4_quat_mul_sse_eq_scalar (q1 q2 : Quat) :
    Quat.hmulSSE q1 q2 = Quat.hmulScalar q1 q2 := by
  simp only [Quat.hmulSSE, Quat.hmulScalar, F32.sub, F32.fmul_neg_left]

/-- C5: the SSE 4x4 matrix product (four broadcast-multiply-accumulate
steps per output column against the left matrix's columns) computes every
entry equal to the scalar quadruple sum accumulated in the same `k` order;
the only difference is the operand order inside each product, and float
multiplication is exactly commutative. -/
theorem claim5_mat4_mul_sse_eq_scalar (m1 m2 : Mat4) :
    Mat4.mmulSSE m1 m2 = Mat4.mmulScalar m1 m2 := by
  simp only [Mat4.mmulSSE, Mat4.mmulScalar, Mat4.multColumnSSE]
  congr 1 <;> congr 1 <;> apply mulAcc4_comm

/-- Counterexample to C6 as stated: with `v1 = (2^-25, 0)` and `v2 = (1, 0)`
(all components finite, no overflow anywhere), the float sum `2^-25 + 1`
rounds to `1`, so `(v1 + v2) - v2 = (0, 0) ≠ v1`. -/
theorem claim6_counterexample :
    Vec2.vsub (Vec2.vadd ⟨F32.fin (1/2^25), F32.fin 0⟩ ⟨F32.fin 1, F32.fin 0⟩)
        ⟨F32.fin 1, F32.fin 0⟩ ≠ ⟨F32.fin (1/2^25), F32.fin 0⟩ := by
  have hadd : F32.roundQ (33554433/33554432) = F32.fin 1 :=
    F32.roundQ_eval _ 1 0 (2^23) (by norm_num) (by norm_num) (by norm_num)
      (by norm_num) (by norm_num) (by norm_num) (by norm_num) (by norm_num)
  norm_num [Vec2.vadd, Vec2.vsub, hadd, F32.add_fin, F32.fsub_fin, F32.roundQ_zero]

/-- C6 (amended): `(v1 + v2) - v2 == v1` holds componentwise, for all three
vector dimensions, whenever `v1`'s components are representable floats and
each componentwise addition `v1 + v2` is exact (incurs no rounding); under
rounding the identity fails in general (see the counterexample). -/
theorem claim6_add_sub_cancel_exact :
    (∀ a1 b1 a2 b2 : ℚ,
      F32.roundQ a1 = F32.fin a1 → F32.roundQ b1 = F32.fin b1 →
      F32.add (F32.fin a1) (F32.fin a2) = F32.fin (a1 + a2) →
      F32.add (F32.fin b1) (F32.fin b2) = F32.fin (b1 + b2) →
      Vec2.vsub (Vec2.vadd ⟨F32.fin a1, F32.fin b1⟩ ⟨F32.fin a2, F32.fin b2⟩)
          ⟨F32.fin a2, F32.fin b2⟩ = ⟨F32.fin a1, F32.fin b1⟩) ∧
    (∀ a1 b1 c1 a2 b2 c2 : ℚ,
      F32.roundQ a1 = F32.fin a1 → F32.roundQ b1 = F32.fin b1 →
      F32.roundQ c1 = F32.fin c1 →
      F32.add (F32.fin a1) (F32.fin a2) = F32.fin (a1 + a2) →
      F32.add (F32.fin b1) (F32.fin b2) = F32.fin (b1 + b2) →
      F32.add (F32.fin c1) (F32.fin c2) = F32.fin (c1 + c2) →
      Vec3.vsub
          (Vec3.vadd ⟨F32.fin a1, F32.fin b1, F32.fin c1⟩
            ⟨F32.fin a2, F32.fin b2, F32.fin c2⟩)
          ⟨F32.fin a2, F32.fin b2, F32.fin c2⟩ =
        ⟨F32.fin a1, F32.fin b1, F32.fin c1⟩) ∧
    (∀ a1 b1 c1 d1 a2 b2 c2 d2 : ℚ,
      F32.roundQ a1 = F32.fin a1 → F32.roundQ b1 = F32.fin b1 →
      F32.roundQ c1 = F32.fin c1 → F32.roundQ d1 = F32.fin d1 →
      F32.add (F32.fin a1) (F32.fin a2) = F32.fin (a1 + a2) →
      F32.add (F32.fin b1) (F32.fin b2) = F32.fin (b1 + b2) →
      F32.add (F32.fin c1) (F32.fin c2) = F32.fin (c1 + c2) →
      F32.add (F32.fin d1) (F32.fin d2) = F32.fin (d1 + d2) →
      Vec4.vsub
          (Vec4.vadd ⟨F32.fin a1, F32.fin b1, F32.fin c1, F32.fin d1⟩
            ⟨F32.fin a2, F32.fin b2, F32.fin c2, F32.fin d2⟩)
          ⟨F32.fin a2, F32.fin b2, F32.fin c2, F32.fin d2⟩ =
        ⟨F32.fin a1, F32.fin b1, F32.fin c1, F32.fin d1⟩) := by
  have core : ∀ a b : ℚ, F32.roundQ a = F32.fin a →
      F32.add (F32.fin a) (F32.fin b) = F32.fin (a + b) →
      F32.sub (F32.add (F32.fin a) (F32.fin b)) (F32.fin b) = F32.fin a := by
    intro a b ha hab
    rw [hab, F32.fsub_fin]
    have h1 : a + b - b = a := by ring
    rw [h1, ha]
  refine ⟨?_, ?_, ?_⟩
  · intro a1 b1 a2 b2 ha hb hea heb
    simp only [Vec2.vadd, Vec2.vsub, core a1 a2 ha hea, core b1 b2 hb heb]
  · intro a1 b1 c1 a2 b2 c2 ha hb hc hea heb hec
    simp only [Vec3.vadd, Vec3.vsub, core a1 a2 ha hea, core b1 b2 hb heb,
      core c1 c2 hc hec]
  · intro a1 b1 c1 d1 a2 b2 c2 d2 ha hb hc hd hea heb hec hed
    simp only [Vec4.vadd, Vec4.vsub, core a1 a2 ha hea, core b1 b2 hb heb,
      core c1 c2 hc hec, core d1 d2 hd hed]

/-- Witness for the amended C6: all-ones vectors, whose sums are exact. -/
theorem claim6_add_sub_cancel_exact_witness :
    Vec2.vsub (Vec2.vadd ⟨F32.fin 1, F32.fin 1⟩ ⟨F32.fin 1, F32.fin 1⟩)
        ⟨F32.fin 1, F32.fin 1⟩ = ⟨F32.fin 1, F32.fin 1⟩ ∧
    Vec3.vsub (Vec3.vadd ⟨F32.fin 1, F32.fin 1, F32.fin 1⟩
        ⟨F32.fin 1, F32.fin 1, F32.fin 1⟩) ⟨F32.fin 1, F32.fin 1, F32.fin 1⟩ =
      ⟨F32.fin 1, F32.fin 1, F32.fin 1⟩ ∧
    Vec4.vsub (Vec4.vadd ⟨F32.fin 1, F32.fin 1, F32.fin 1, F32.fin 1⟩
        ⟨F32.fin 1, F32.fin 1, F32.fin 1, F32.fin 1⟩)
        ⟨F32.fin 1, F32.fin 1, F32.fin 1, F32.fin 1⟩ =
      ⟨F32.fin 1, F32.fin 1, F32.fin 1, F32.fin 1⟩ := by
  have hone : F32.roundQ 1 = F32.fin 1 := F32.roundQ_one
  have hsum : F32.add (F32.fin 1) (F32.fin 1) = F32.fin (1 + 1) := by
    rw [F32.add_fin]
    norm_num [F32.roundQ_two]
  refine ⟨claim6_add_sub_cancel_exact.1 1 1 1 1 hone hone hsum hsum,
    claim6_add_sub_cancel_exact.2.1 1 1 1 1 1 1 hone hone hone hsum hsum hsum,
    claim6_add_sub_cancel_exact.2.2 1 1 1 1 1 1 1 1 hone hone hone hone
      hsum hsum hsum hsum⟩

/-- C9: `translate(Vector3(1,2,3)) * Vector4(0,0,0,1)` computes exactly
`Vector4(1,2,3,1)` (concrete evaluation of the SSE matrix-vector product). -/
theorem claim9_translate_point :
    Mat4.mvmul (Mat4.translate ⟨F32.fin 1, F32.fin 2, F32.fin 3⟩)
        ⟨F32.fin 0, F32.fin 0, F32.fin 0, F32.fin 1⟩ =
      ⟨F32.fin 1, F32.fin 2, F32.fin 3, F32.fin 1⟩ := by
  norm_num [Mat4.mvmul, Mat4.multColumnSSE, Mat4.translate, F32.mul_fin, F32.add_fin,
    F32.roundQ_zero, F32.roundQ_one, F32.roundQ_two, F32.roundQ_three]

/-- C10: `length(conjugate(q))` equals `length(q)` as float values for every
quaternion `q`: negating `x`, `y`, `z` leaves every squared term of
`dot(q,q)`, hence the length, bit-identical. -/
theorem claim10_conjugate_length (q : Quat) :
    Quat.length (Quat.conjugate q) = Quat.length q := by
  simp only [Quat.length, Quat.conjugate, Quat.dot, F32.fmul_neg_neg]

/-- Counterexample to C7 as stated: at the identity quaternion and `a = 0`
(with `a ∈ [0,1]`), `slerp(q, q, a)` is all-NaN, not `q`: `dot(q,q) = 1`
exactly, `acos(1) = 0`, `sin(0) = 0`, and the unguarded `1/sin(angle)`
multiplies the zero numerator into `0 * inf = NaN`. -/
theorem claim7_counterexample :
    Quat.slerp sinfModel acosfModel ⟨F32.fin 0, F32.fin 0, F32.fin 0, F32.fin 1⟩
        ⟨F32.fin 0, F32.fin 0, F32.fin 0, F32.fin 1⟩ (F32.fin 0) =
      ⟨F32.nan, F32.nan, F32.nan, F32.nan⟩ ∧
    (⟨F32.nan, F32.nan, F32.nan, F32.nan⟩ : Quat) ≠
      ⟨F32.fin 0, F32.fin 0, F32.fin 0, F32.fin 1⟩ := by
  constructor
  · have hdot : Quat.dot ⟨F32.fin 0, F32.fin 0, F32.fin 0, F32.fin 1⟩
        ⟨F32.fin 0, F32.fin 0, F32.fin 0, F32.fin 1⟩ = F32.fin 1 := by
      norm_num [Quat.dot, F32.mul_fin, F32.add_fin, F32.roundQ_zero, F32.roundQ_one]
    norm_num [Quat.slerp, Quat.scale, Quat.qadd, hdot, sinfModel, acosfModel,
      F32.mul_fin, F32.add_fin, F32.fsub_fin, F32.roundQ_zero, F32.roundQ_one,
      F32.div_fin_zero_pos, F32.fmul_zero_inf]
  · decide

/-- C7 (amended): `slerp(q, q, a)` with exactly-equal arguments always falls
into the unguarded zero-sine edge case the claim tries to set aside: for any
host `sinf`/`acosf` obeying the C-standard exact cases `sin(0) = 0` and
`acos(1) = 0`, any quaternion with finite components whose computed
`dot(q,q)` is exactly 1, and any `a ∈ [0,1]`, every component of
`slerp(q,q,a)` is NaN - the identity `slerp(q,q,a) == q` never holds
there. -/
theorem claim7_slerp_self_nan (sinF acosF : F32 → F32) (qx qy qz qw av : ℚ)
    (hsin : sinF (F32.fin 0) = F32.fin 0)
    (hacos : acosF (F32.fin 1) = F32.fin 0)
    (hdot : Quat.dot ⟨F32.fin qx, F32.fin qy, F32.fin qz, F32.fin qw⟩
        ⟨F32.fin qx, F32.fin qy, F32.fin qz, F32.fin qw⟩ = F32.fin 1)
    (ha0 : 0 ≤ av) (ha1 : av ≤ 1) :
    Quat.slerp sinF acosF ⟨F32.fin qx, F32.fin qy, F32.fin qz, F32.fin qw⟩
        ⟨F32.fin qx, F32.fin qy, F32.fin qz, F32.fin qw⟩ (F32.fin av) =
      ⟨F32.nan, F32.nan, F32.nan, F32.nan⟩ := by
  have hone : (1:ℚ) < 2 ^ (127:ℤ) :=
    one_lt_zpow₀ (one_lt_two (α := ℚ)) (by norm_num)
  obtain ⟨c, hc⟩ := F32.roundQ_isFin_of_nonneg (1 - av) (by linarith) (by linarith)
  have hadd00 : F32.add (F32.fin 0) (F32.fin 0) = F32.fin 0 := by
    show F32.roundQ (0 + 0) = F32.fin 0
    rw [add_zero]
    exact F32.roundQ_zero
  have hdiv10 : F32.div (F32.fin 1) (F32.fin 0) = F32.inf := by
    norm_num [F32.div]
  simp only [Quat.slerp, hdot, hacos, F32.fsub_fin, hc, F32.fmul_fin_zero, hsin,
    hdiv10, Quat.scale, Quat.qadd, hadd00, F32.fmul_zero_inf]

/-- Witness for the amended C7: the identity quaternion, `a = 0`, and the
spec-modelled host `sinf`/`acosf`. -/
theorem claim7_slerp_self_nan_witness :
    Quat.slerp sinfModel acosfModel ⟨F32.fin 0, F32.fin 0, F32.fin 0, F32.fin 1⟩
        ⟨F32.fin 0, F32.fin 0, F32.fin 0, F32.fin 1⟩ (F32.fin 0) =
      ⟨F32.nan, F32.nan, F32.nan, F32.nan⟩ :=
  claim7_slerp_self_nan sinfModel acosfModel 0 0 0 1 0
    (by simp [sinfModel]) (by simp [acosfModel])
    (by norm_num [Quat.dot, F32.mul_fin, F32.add_fin, F32.roundQ_zero, F32.roundQ_one])
    le_rfl zero_le_one

/-- C8: for any host `tanf` returning a finite value at the computed
argument, `perspective(90, 1.0, 0.1, 100.0)` has `m[0][0] == m[1][1]`
(the aspect ratio 1.0 multiplies `scale` exactly), `m[2][3] = -1`, and
every entry other than the five assigned ones is exactly 0 (the matrix is
zero-initialised before the five assignments). -/
theorem claim8_perspective_scenario (tanF : F32 → F32) (t : ℚ)
    (htan : tanF (Mat4.degToRad (F32.mul (F32.fin 90) (F32.flit (1/2)))) = F32.fin t) :
    ((Mat4.perspTest tanF).entry 0 0 = (Mat4.perspTest tanF).entry 1 1 ∧
      F32.feq ((Mat4.perspTest tanF).entry 0 0)
        ((Mat4.perspTest tanF).entry 1 1) = true) ∧
    (Mat4.perspTest tanF).entry 2 3 = F32.fin (-1) ∧
    (∀ i j : Fin 4, (i, j) ∉ Mat4.perspAssigned →
      (Mat4.perspTest tanF).entry i j = F32.fin 0) := by
  have hn : F32.flit (1/10) = F32.fin (13421773/134217728) := by
    rw [F32.flit]
    refine F32.roundQ_eval _ _ (-4) 13421773 (by norm_num) (by norm_num) (by norm_num)
      (by norm_num) (by norm_num) (by norm_num) (by norm_num) (by norm_num)
  have h00 : (Mat4.perspTest tanF).entry 0 0 = F32.div (F32.flit (1/10))
      (F32.mul (F32.fin 1)
        (F32.mul (tanF (Mat4.degToRad (F32.mul (F32.fin 90) (F32.flit (1/2)))))
          (F32.flit (1/10)))) := rfl
  have h11 : (Mat4.perspTest tanF).entry 1 1 = F32.div (F32.flit (1/10))
      (F32.mul (tanF (Mat4.degToRad (F32.mul (F32.fin 90) (F32.flit (1/2)))))
        (F32.flit (1/10))) := rfl
  have honemul : F32.mul (F32.fin 1) (F32.mul (F32.fin t) (F32.flit (1/10))) =
      F32.mul (F32.fin t) (F32.flit (1/10)) := by
    rw [hn]
    exact F32.fmul_one_roundQ _
  have heq : (Mat4.perspTest tanF).entry 0 0 = (Mat4.perspTest tanF).entry 1 1 := by
    rw [h00, h11, htan, honemul]
  refine ⟨⟨heq, ?_⟩, ?_, ?_⟩
  · rw [heq]
    apply F32.feq_refl_of_ne_nan
    rw [h11, htan, hn]
    exact F32.fdiv_fin_ne_nan _ (by norm_num) _ (F32.roundQ_ne_nan _)
  · show F32.flit (-1) = F32.fin (-1)
    rw [F32.flit]
    exact F32.roundQ_neg_one
  · intro i j hij
    fin_cases i <;> fin_cases j <;>
      first
        | rfl
        | exact absurd (by decide) hij

/-- Witness for C8: a host `tanf` returning the finite value 1. -/
theorem claim8_perspective_scenario_witness :
    ((Mat4.perspTest (fun _ => F32.fin 1)).entry 0 0 =
        (Mat4.perspTest (fun _ => F32.fin 1)).entry 1 1 ∧
      F32.feq ((Mat4.perspTest (fun _ => F32.fin 1)).entry 0 0)
        ((Mat4.perspTest (fun _ => F32.fin 1)).entry 1 1) = true) ∧
    (Mat4.perspTest (fun _ => F32.fin 1)).entry 2 3 = F32.fin (-1) ∧
    (∀ i j : Fin 4, (i, j) ∉ Mat4.perspAssigned →
      (Mat4.perspTest (fun _ => F32.fin 1)).entry i j = F32.fin 0) :=
  claim8_perspective_scenario (fun _ => F32.fin 1) 1 rfl

end QM
